import Mathlib

set_option maxHeartbeats 1000000

namespace LLMCleanText

/-- A JavaScript string, modelled as its sequence of UTF-16 code units. -/
abbrev JSStr := List Nat

/-- The replacement table `basicReplacements` from src/src/App.tsx lines 4-9
(duplicated verbatim in src/unnamed/part_000 lines 4-13): each key is one
non-ASCII code point, each value the code units of its ASCII substitution.
The 28 entries appear in source order. -/
def basicReplacements : List (Nat × JSStr) := [
  (0x201C, [0x22]), (0x201D, [0x22]), (0x201E, [0x22]), (0xAB, [0x22]), (0xBB, [0x22]),
  (0x2018, [0x27]), (0x2019, [0x27]), (0x201A, [0x27]), (0x2032, [0x27]), (0x2033, [0x22]),
  (0x2013, [0x2D]), (0x2014, [0x2D]), (0x2010, [0x2D]), (0x2011, [0x2D]), (0x2012, [0x2D]),
  (0x2026, [0x2E, 0x2E, 0x2E]),
  (0x2022, [0x2A]), (0xB7, [0x2E]), (0xD7, [0x78]), (0xF7, [0x2F]),
  (0xB0, [0x20, 0x64, 0x65, 0x67, 0x20]),
  (0x20AC, [0x45, 0x55, 0x52]), (0xA3, [0x47, 0x42, 0x50]), (0xA5, [0x59, 0x45, 0x4E]),
  (0xA2, [0x63]), (0xA9, [0x28, 0x63, 0x29]), (0xAE, [0x28, 0x52, 0x29]),
  (0x2122, [0x28, 0x54, 0x4D, 0x29])]

/-- The character class of the substitution regex
`/[“”„«»‘’‚′″–—‐‑‒…•·×÷°€£¥¢©®™]/g` in transliterateToASCII, in source order. -/
def replacementClass : List Nat := [
  0x201C, 0x201D, 0x201E, 0xAB, 0xBB, 0x2018, 0x2019, 0x201A, 0x2032, 0x2033,
  0x2013, 0x2014, 0x2010, 0x2011, 0x2012, 0x2026, 0x2022, 0xB7, 0xD7, 0xF7,
  0xB0, 0x20AC, 0xA3, 0xA5, 0xA2, 0xA9, 0xAE, 0x2122]

/-- One character of the substitution pass
`s.replace(/[...]/g, ch => basicReplacements[ch] || '')`: a character in the
regex class is replaced by its table entry (the JS `|| ''` default models an
absent entry), any other character passes through. -/
def substChar (c : Nat) : JSStr :=
  if c ∈ replacementClass then (basicReplacements.lookup c).getD [] else [c]

/-- Canonical decomposition (NFD) of one code point, modelling the JS builtin
`String.prototype.normalize('NFD')`: the Unicode canonical decompositions of
the precomposed Latin letters that occur in this repository's string literals
(é U+00E9, ç U+00E7, ï U+00EF); every other code point occurring in the
repository (ASCII, the typographic symbols of the replacement table, CJK,
lone surrogates) has no canonical decomposition and is returned unchanged. -/
def nfdChar (c : Nat) : JSStr :=
  if c = 0xE9 then [0x65, 0x301]
  else if c = 0xE7 then [0x63, 0x327]
  else if c = 0xEF then [0x69, 0x308]
  else [c]

/-- Apply a character-to-string map to every code unit and concatenate, the
shape shared by `normalize('NFD')` and the substitution `replace`. -/
def expand (f : Nat → JSStr) : JSStr → JSStr
  | [] => []
  | c :: rest => f c ++ expand f rest

/-- Step 1 of transliterateToASCII: `input.normalize('NFD')`. -/
def nfd (s : JSStr) : JSStr := expand nfdChar s

/-- Step 2 of transliterateToASCII: the substitution `replace`. -/
def substStep (s : JSStr) : JSStr := expand substChar s

/-- The `combiningMarks` regex `/[̀-ͯ]/g` of the source as a
predicate on one code unit. -/
def isCombiningMark (c : Nat) : Bool := decide (0x300 ≤ c) && decide (c ≤ 0x36F)

/-- Step 3 of transliterateToASCII: `s.replace(combiningMarks, '')`. -/
def stripMarks (s : JSStr) : JSStr := s.filter (fun c => !(isCombiningMark c))

/-- Step 4 of transliterateToASCII: `s.replace(/[^\x00-\x7F]/g, '')`; without
the `u` flag the regex drops every code unit above 0x7F, lone surrogates
included. -/
def stripNonAscii (s : JSStr) : JSStr := s.filter (fun c => decide (c ≤ 0x7F))

/-- The regex class `[ \t]` of the whitespace-collapse step. -/
def isSpaceTab (c : Nat) : Bool := decide (c = 0x20) || decide (c = 0x9)

/-- Worker for the collapse step; `sp` records whether the current position
is inside a `[ \t]+` run whose single replacement space was already output. -/
def collapseAux (sp : Bool) : JSStr → JSStr
  | [] => []
  | c :: rest =>
    if isSpaceTab c then
      if sp then collapseAux true rest else 0x20 :: collapseAux true rest
    else c :: collapseAux false rest

/-- Step 5 of transliterateToASCII: `s.replace(/[ \t]+/g, ' ')`, every run of
spaces and tabs collapsed to a single space. -/
def collapse (s : JSStr) : JSStr := collapseAux false s

/-- Step 6 of transliterateToASCII: `s.replace(/\r\n?/g, '\n')`; a CR or a
CRLF pair becomes a single LF. -/
def normNewlines : JSStr → JSStr
  | [] => []
  | [c] => if c = 0xD then [0xA] else [c]
  | c :: d :: rest =>
    if c = 0xD then
      if d = 0xA then 0xA :: normNewlines rest
      else 0xA :: normNewlines (d :: rest)
    else c :: normNewlines (d :: rest)

/-- The set of code units the JS string methods `trim`/`trimEnd` treat as
whitespace (ECMAScript WhiteSpace plus LineTerminator). -/
def isJsWhitespace (c : Nat) : Bool :=
  decide (c = 0x9) || decide (c = 0xA) || decide (c = 0xB) || decide (c = 0xC) ||
  decide (c = 0xD) || decide (c = 0x20) || decide (c = 0xA0) || decide (c = 0x1680) ||
  (decide (0x2000 ≤ c) && decide (c ≤ 0x200A)) || decide (c = 0x2028) ||
  decide (c = 0x2029) || decide (c = 0x202F) || decide (c = 0x205F) ||
  decide (c = 0x3000) || decide (c = 0xFEFF)

/-- JS `String.prototype.trimEnd`: remove the trailing run of whitespace. -/
def trimEnd : JSStr → JSStr
  | [] => []
  | c :: rest =>
    match trimEnd rest with
    | [] => if isJsWhitespace c then [] else [c]
    | d :: t => c :: d :: t

/-- JS `String.prototype.trimStart`: remove the leading run of whitespace. -/
def trimStart : JSStr → JSStr
  | [] => []
  | c :: rest => if isJsWhitespace c then trimStart rest else c :: rest

/-- JS `String.prototype.trim`: remove whitespace at both ends. -/
def trim (s : JSStr) : JSStr := trimEnd (trimStart s)

/-- JS `s.split('\n')`: the (always nonempty) list of LF-free segments. -/
def splitNL : JSStr → List JSStr
  | [] => [[]]
  | c :: rest =>
    if c = 0xA then [] :: splitNL rest
    else
      match splitNL rest with
      | [] => [[c]]
      | line :: ls => (c :: line) :: ls

/-- JS `lines.join('\n')`. -/
def joinNL : List JSStr → JSStr
  | [] => []
  | [line] => line
  | line :: l2 :: ls => line ++ 0xA :: joinNL (l2 :: ls)

/-- Step 7 of transliterateToASCII:
`s.split('\n').map(l => l.trimEnd()).join('\n')`. -/
def linesTrim (s : JSStr) : JSStr := joinNL ((splitNL s).map trimEnd)

/-- `transliterateToASCII` from src/src/App.tsx lines 12-22 (the
src/unnamed/part_000 lines 18-34 variant omits only the leading empty-string
guard, which is observationally redundant): NFD decomposition, symbol
substitution, combining-mark strip, non-ASCII drop, horizontal-whitespace
collapse, newline normalization, per-line trailing trim, global trim. -/
def transliterateToASCII (input : JSStr) : JSStr :=
  if input = [] then []
  else trim (linesTrim (normNewlines (collapse (stripNonAscii (stripMarks
    (substStep (nfd input)))))))

/-- The statistics record set by `convert` in src/src/App.tsx lines 165-169
(and src/unnamed/part_000 lines 46-50). -/
structure ConversionStats where
  inChars : Nat
  outChars : Nat
  removed : Int
  deriving Repr, DecidableEq

/-- `convert` from src/src/App.tsx lines 165-169: the ASCII output together
with `{inChars: text.length, outChars: ascii.length,
removed: text.length - ascii.length}`. -/
def convert (text : JSStr) : JSStr × ConversionStats :=
  let ascii := transliterateToASCII text
  (ascii, { inChars := text.length, outChars := ascii.length,
            removed := (text.length : Int) - (ascii.length : Int) })

/-- The English `demoStepDesc` descriptions from the i18n dictionary of
src/src/App.tsx, in stage order 0-6. -/
def demoStepDescEn : List String := [
  "Original sample with accents, special punctuation and non‑Latin.",
  "NFD normalization splits base letters and diacritics (é → e + accent).",
  "Replace special punctuation with ASCII equivalents.",
  "Remove diacritics (leave only base letters).",
  "Remove any non‑ASCII characters (e.g. 中文).",
  "Collapse multiple spaces for clean formatting.",
  "Final clean ASCII-compatible text."]

/-- The output of one stage transform, `{ text, desc }` in buildStepFn. -/
structure StepResult where
  text : JSStr
  desc : String
  deriving Repr, DecidableEq

/-- The text component of stage `idx` of `buildStepFn` (src/src/App.tsx lines
114-127): the seven cases of the switch, with the switch's default case for
any other index. -/
def stepText (idx : Nat) (s : JSStr) : JSStr :=
  match idx with
  | 0 => s
  | 1 => nfd s
  | 2 => substStep (nfd s)
  | 3 => stripMarks (substStep (nfd s))
  | 4 => trim (linesTrim (normNewlines (collapse (transliterateToASCII s))))
  | 5 => trim (linesTrim (normNewlines (transliterateToASCII s)))
  | 6 => transliterateToASCII s
  | _ => s

/-- `applyStage(ordinal, sample)`: the stage function built by buildStepFn
applied to a sample, returning the text and the stage description. -/
def applyStage (idx : Nat) (s : JSStr) : StepResult :=
  { text := stepText idx s, desc := demoStepDescEn.getD idx "" }

/-- The fixed sample `sampleDemo` of src/src/App.tsx, as code units:
`Français naïve – “Ciao mondo!” — 25°...` LF `Altri simboli: © 中文`. -/
def sampleDemo : JSStr := [
  0x46, 0x72, 0x61, 0x6E, 0xE7, 0x61, 0x69, 0x73, 0x20,
  0x6E, 0x61, 0xEF, 0x76, 0x65, 0x20, 0x2013, 0x20,
  0x201C, 0x43, 0x69, 0x61, 0x6F, 0x20, 0x6D, 0x6F, 0x6E, 0x64, 0x6F, 0x21, 0x201D,
  0x20, 0x2014, 0x20, 0x32, 0x35, 0xB0, 0x2E, 0x2E, 0x2E, 0xA,
  0x41, 0x6C, 0x74, 0x72, 0x69, 0x20, 0x73, 0x69, 0x6D, 0x62, 0x6F, 0x6C, 0x69,
  0x3A, 0x20, 0xA9, 0x20, 0x4E2D, 0x6587]

/-- The spec's example input "café" (with precomposed é U+00E9). -/
def cafeInput : JSStr := [0x63, 0x61, 0x66, 0xE9]

/-- No adjacent pair of code units of the list is `bad`. -/
def chainOK (bad : Nat → Nat → Bool) : JSStr → Bool
  | [] => true
  | [_] => true
  | a :: b :: rest => !bad a b && chainOK bad (b :: rest)

/-- The first code unit, if any, is not JS whitespace. -/
def headOK : JSStr → Bool
  | [] => true
  | c :: _ => !isJsWhitespace c

/-- The last code unit, if any, is not JS whitespace. -/
def lastOK : JSStr → Bool
  | [] => true
  | [c] => !isJsWhitespace c
  | _ :: c :: rest => lastOK (c :: rest)

/-- Bad pair for the collapse step: two adjacent spaces. -/
def doubleSpace (a b : Nat) : Bool := decide (a = 0x20) && decide (b = 0x20)

/-- Bad pair for the per-line trim step: a whitespace code unit other than LF
standing immediately before an LF, i.e. trailing whitespace of a line. -/
def wsBeforeNL (a b : Nat) : Bool :=
  isJsWhitespace a && !(decide (a = 0xA)) && decide (b = 0xA)

/-- The normal form enjoyed by every output of the engine: pure ASCII, no tab,
no CR, no run of two spaces, no trailing whitespace before a line break, and
no whitespace at either end.  Every step of the pipeline is the identity on
such a string. -/
def CleanText (l : JSStr) : Prop :=
  (∀ c ∈ l, c < 128) ∧ 0x9 ∉ l ∧ 0xD ∉ l ∧
  chainOK doubleSpace l = true ∧ chainOK wsBeforeNL l = true ∧
  headOK l = true ∧ lastOK l = true

theorem mem_expand {f : Nat → JSStr} {c : Nat} :
    ∀ {l : JSStr}, c ∈ expand f l → ∃ d ∈ l, c ∈ f d := by
  intro l h
  induction l with
  | nil => simp [expand] at h
  | cons d rest ih =>
    simp only [expand, List.mem_append] at h
    rcases h with h | h
    · exact ⟨d, List.mem_cons_self d rest, h⟩
    · obtain ⟨e, he, hc⟩ := ih h
      exact ⟨e, List.mem_cons_of_mem d he, hc⟩

theorem mem_collapseAux {c : Nat} :
    ∀ (sp : Bool) (l : JSStr), c ∈ collapseAux sp l → c ∈ l ∨ c = 0x20 := by
  intro sp l
  induction l generalizing sp with
  | nil => simp [collapseAux]
  | cons d rest ih =>
    intro h
    simp only [collapseAux] at h
    by_cases hd : isSpaceTab d
    · rw [if_pos hd] at h
      cases sp with
      | true =>
        rcases ih true h with h2 | h2
        · exact Or.inl (List.mem_cons_of_mem d h2)
        · exact Or.inr h2
      | false =>
        rcases List.mem_cons.mp h with h2 | h2
        · exact Or.inr h2
        · rcases ih true h2 with h3 | h3
          · exact Or.inl (List.mem_cons_of_mem d h3)
          · exact Or.inr h3
    · rw [if_neg hd] at h
      rcases List.mem_cons.mp h with h2 | h2
      · exact Or.inl (h2 ▸ List.mem_cons_self d rest)
      · rcases ih false h2 with h3 | h3
        · exact Or.inl (List.mem_cons_of_mem d h3)
        · exact Or.inr h3

theorem collapseAux_no9 : ∀ (sp : Bool) (l : JSStr), 0x9 ∉ collapseAux sp l := by
  intro sp l
  induction l generalizing sp with
  | nil => simp [collapseAux]
  | cons d rest ih =>
    simp only [collapseAux]
    by_cases hd : isSpaceTab d
    · rw [if_pos hd]
      cases sp with
      | true => exact ih true
      | false =>
        intro h
        rcases List.mem_cons.mp h with h2 | h2
        · omega
        · exact ih true h2
    · rw [if_neg hd]
      intro h
      rcases List.mem_cons.mp h with h2 | h2
      · apply hd
        rw [← h2]
        simp [isSpaceTab]
      · exact ih false h2

theorem mem_normNewlines {c : Nat} :
    ∀ l : JSStr, c ∈ normNewlines l → c ∈ l ∨ c = 0xA
  | [], h => by simp [normNewlines] at h
  | [d], h => by
    by_cases hd : d = 0xD
    · simp [normNewlines, hd] at h
      exact Or.inr h
    · simp [normNewlines, hd] at h
      simp [h]
  | d :: e :: rest, h => by
    by_cases hd : d = 0xD
    · by_cases he : e = 0xA
      · simp only [normNewlines, hd, he, if_pos, if_true] at h
        rcases List.mem_cons.mp h with h2 | h2
        · exact Or.inr h2
        · rcases mem_normNewlines rest h2 with h3 | h3
          · exact Or.inl (by simp [h3])
          · exact Or.inr h3
      · simp only [normNewlines, if_pos hd, if_neg he] at h
        rcases List.mem_cons.mp h with h2 | h2
        · exact Or.inr h2
        · rcases mem_normNewlines (e :: rest) h2 with h3 | h3
          · exact Or.inl (List.mem_cons_of_mem d h3)
          · exact Or.inr h3
    · simp only [normNewlines, if_neg hd] at h
      rcases List.mem_cons.mp h with h2 | h2
      · exact Or.inl (by simp [h2])
      · rcases mem_normNewlines (e :: rest) h2 with h3 | h3
        · exact Or.inl (List.mem_cons_of_mem d h3)
        · exact Or.inr h3

theorem normNewlines_no13 : ∀ l : JSStr, 0xD ∉ normNewlines l
  | [] => by simp [normNewlines]
  | [d] => by
    by_cases hd : d = 0xD
    · simp [normNewlines, hd]
    · simp [normNewlines, hd]
      omega
  | d :: e :: rest => by
    by_cases hd : d = 0xD
    · by_cases he : e = 0xA
      · simp only [normNewlines, if_pos hd, if_pos he]
        intro h
        rcases List.mem_cons.mp h with h2 | h2
        · omega
        · exact normNewlines_no13 rest h2
      · simp only [normNewlines, if_pos hd, if_neg he]
        intro h
        rcases List.mem_cons.mp h with h2 | h2
        · omega
        · exact normNewlines_no13 (e :: rest) h2
    · simp only [normNewlines, if_neg hd]
      intro h
      rcases List.mem_cons.mp h with h2 | h2
      · exact hd h2.symm
      · exact normNewlines_no13 (e :: rest) h2

theorem mem_trimEnd {c : Nat} : ∀ l : JSStr, c ∈ trimEnd l → c ∈ l := by
  intro l
  induction l with
  | nil => simp [trimEnd]
  | cons d rest ih =>
    intro h
    simp only [trimEnd] at h
    cases htr : trimEnd rest with
    | nil =>
      rw [htr] at h
      by_cases hd : isJsWhitespace d
      · simp [hd] at h
      · simp [hd] at h
        simp [h]
    | cons e t =>
      rw [htr] at h
      rcases List.mem_cons.mp h with h2 | h2
      · exact Or.inl h2 |> List.mem_cons.mpr
      · exact List.mem_cons_of_mem d (ih (htr ▸ h2))

theorem mem_trimStart {c : Nat} : ∀ l : JSStr, c ∈ trimStart l → c ∈ l := by
  intro l
  induction l with
  | nil => simp [trimStart]
  | cons d rest ih =>
    intro h
    simp only [trimStart] at h
    by_cases hd : isJsWhitespace d
    · rw [if_pos hd] at h
      exact List.mem_cons_of_mem d (ih h)
    · rwa [if_neg hd] at h

theorem mem_trim {c : Nat} (l : JSStr) (h : c ∈ trim l) : c ∈ l :=
  mem_trimStart l (mem_trimEnd (trimStart l) h)

theorem mem_splitNL {c : Nat} :
    ∀ l line : JSStr, line ∈ splitNL l → c ∈ line → c ∈ l := by
  intro l
  induction l with
  | nil =>
    intro line hl hc
    simp [splitNL] at hl
    simp [hl] at hc
  | cons d rest ih =>
    intro line hl hc
    simp only [splitNL] at hl
    by_cases hd : d = 0xA
    · rw [if_pos hd] at hl
      rcases List.mem_cons.mp hl with h2 | h2
      · simp [h2] at hc
      · exact List.mem_cons_of_mem d (ih line h2 hc)
    · rw [if_neg hd] at hl
      cases hsp : splitNL rest with
      | nil =>
        rw [hsp] at hl
        simp at hl
        rw [hl] at hc
        simp at hc
        simp [hc]
      | cons l0 ls =>
        rw [hsp] at hl
        rcases List.mem_cons.mp hl with h2 | h2
        · rw [h2] at hc
          rcases List.mem_cons.mp hc with h3 | h3
          · simp [h3]
          · exact List.mem_cons_of_mem d
              (ih l0 (hsp ▸ List.mem_cons_self l0 ls) h3)
        · exact List.mem_cons_of_mem d
            (ih line (hsp ▸ List.mem_cons_of_mem l0 h2) hc)

theorem mem_joinNL {c : Nat} :
    ∀ ls : List JSStr, c ∈ joinNL ls → (∃ line ∈ ls, c ∈ line) ∨ c = 0xA
  | [], h => by simp [joinNL] at h
  | [line], h => by
    simp only [joinNL] at h
    exact Or.inl ⟨line, List.mem_cons_self line [], h⟩
  | line :: l2 :: ls, h => by
    simp only [joinNL, List.mem_append] at h
    rcases h with h | h
    · exact Or.inl ⟨line, List.mem_cons_self line (l2 :: ls), h⟩
    · rcases List.mem_cons.mp h with h2 | h2
      · exact Or.inr h2
      · rcases mem_joinNL (l2 :: ls) h2 with ⟨m, hm, hc⟩ | h3
        · exact Or.inl ⟨m, List.mem_cons_of_mem line hm, hc⟩
        · exact Or.inr h3

theorem mem_linesTrim {c : Nat} (l : JSStr) (h : c ∈ linesTrim l) :
    c ∈ l ∨ c = 0xA := by
  rcases mem_joinNL _ h with ⟨m, hm, hc⟩ | h2
  · obtain ⟨line, hline, hmap⟩ := List.mem_map.mp hm
    exact Or.inl (mem_splitNL l line hline (mem_trimEnd line (hmap ▸ hc)))
  · exact Or.inr h2

theorem mem_stripNonAscii {c : Nat} (l : JSStr) (h : c ∈ stripNonAscii l) :
    c ≤ 0x7F := by
  have := (List.mem_filter.mp h).2
  simpa using this

/-- C1 core: every code unit of the engine output is ASCII. -/
theorem transliterate_mem_ascii {c : Nat} (s : JSStr)
    (h : c ∈ transliterateToASCII s) : c < 128 := by
  unfold transliterateToASCII at h
  by_cases hs : s = []
  · rw [if_pos hs] at h
    simp at h
  · rw [if_neg hs] at h
    have h1 := mem_trim _ h
    rcases mem_linesTrim _ h1 with h2 | h2
    · rcases mem_normNewlines _ h2 with h3 | h3
      · rcases mem_collapseAux false _ h3 with h4 | h4
        · have := mem_stripNonAscii _ h4
          omega
        · omega
      · omega
    · omega

theorem chainOK_tail {bad : Nat → Nat → Bool} {a : Nat} {l : JSStr}
    (h : chainOK bad (a :: l) = true) : chainOK bad l = true := by
  cases l with
  | nil => rfl
  | cons b r =>
    simp only [chainOK, Bool.and_eq_true] at h
    exact h.2

theorem chainOK_head {bad : Nat → Nat → Bool} {a b : Nat} {r : JSStr}
    (h : chainOK bad (a :: b :: r) = true) : bad a b = false := by
  simp only [chainOK, Bool.and_eq_true, Bool.not_eq_true'] at h
  exact h.1

theorem filterSelf (p : Nat → Bool) :
    ∀ l : JSStr, (∀ c ∈ l, p c = true) → l.filter p = l := by
  intro l h
  induction l with
  | nil => rfl
  | cons c rest ih =>
    rw [List.filter_cons, if_pos (h c (List.mem_cons_self c rest))]
    rw [ih fun d hd => h d (List.mem_cons_of_mem c hd)]

theorem expand_eq_self (f : Nat → JSStr) :
    ∀ l : JSStr, (∀ c ∈ l, f c = [c]) → expand f l = l := by
  intro l h
  induction l with
  | nil => rfl
  | cons c rest ih =>
    simp only [expand]
    rw [h c (List.mem_cons_self c rest), ih fun d hd => h d (List.mem_cons_of_mem c hd)]
    rfl

theorem replacementClass_ge {c : Nat} (h : c ∈ replacementClass) : 0x80 ≤ c := by
  simp [replacementClass] at h
  omega

theorem nfdChar_ascii {c : Nat} (h : c < 128) : nfdChar c = [c] := by
  unfold nfdChar
  rw [if_neg (by omega), if_neg (by omega), if_neg (by omega)]

theorem substChar_ascii {c : Nat} (h : c < 128) : substChar c = [c] := by
  unfold substChar
  rw [if_neg]
  intro hmem
  have := replacementClass_ge hmem
  omega

theorem nfd_ascii_id {l : JSStr} (h : ∀ c ∈ l, c < 128) : nfd l = l :=
  expand_eq_self nfdChar l fun c hc => nfdChar_ascii (h c hc)

theorem substStep_ascii_id {l : JSStr} (h : ∀ c ∈ l, c < 128) : substStep l = l :=
  expand_eq_self substChar l fun c hc => substChar_ascii (h c hc)

theorem stripMarks_ascii_id {l : JSStr} (h : ∀ c ∈ l, c < 128) : stripMarks l = l := by
  apply filterSelf
  intro c hc
  have := h c hc
  simp [isCombiningMark]
  omega

theorem stripNonAscii_ascii_id {l : JSStr} (h : ∀ c ∈ l, c < 128) :
    stripNonAscii l = l := by
  apply filterSelf
  intro c hc
  have := h c hc
  simp
  omega

theorem collapseAux_eq_self :
    ∀ (sp : Bool) (l : JSStr), 0x9 ∉ l → chainOK doubleSpace l = true →
      (∀ d t, sp = true → l = d :: t → isSpaceTab d = false) →
      collapseAux sp l = l := by
  intro sp l
  induction l generalizing sp with
  | nil => intro _ _ _; rfl
  | cons d rest ih =>
    intro h9 hds hsp
    by_cases hd : isSpaceTab d
    · have hd9 : d ≠ 0x9 := fun he => h9 (by simp [he])
      have hd32 : d = 0x20 := by
        simp [isSpaceTab] at hd
        omega
      cases sp with
      | true =>
        have := hsp d rest rfl rfl
        rw [hd] at this
        exact absurd this (by simp)
      | false =>
        simp only [collapseAux, if_pos hd, Bool.false_eq_true, if_false]
        have hrec : collapseAux true rest = rest := by
          apply ih true (fun he => h9 (List.mem_cons_of_mem d he)) (chainOK_tail hds)
          intro e t _ hrest
          have he9 : e ≠ 0x9 := fun hee => h9 (by simp [hrest, hee])
          have hpair : doubleSpace d e = false := by
            rw [hrest] at hds
            exact chainOK_head hds
          rw [hd32] at hpair
          simp [doubleSpace] at hpair
          simp [isSpaceTab]
          constructor <;> omega
        rw [hrec, hd32]
    · simp only [collapseAux, if_neg hd]
      rw [ih false (fun he => h9 (List.mem_cons_of_mem d he)) (chainOK_tail hds)
        (by intro _ _ hfalse _; simp at hfalse)]

theorem collapse_eq_self {l : JSStr} (h9 : 0x9 ∉ l)
    (hds : chainOK doubleSpace l = true) : collapse l = l :=
  collapseAux_eq_self false l h9 hds (by intro _ _ hfalse _; simp at hfalse)

theorem normNewlines_eq_self : ∀ l : JSStr, 0xD ∉ l → normNewlines l = l
  | [], _ => rfl
  | [c], h => by
    have hc : ¬(c = 0xD) := fun he => h (by simp [he])
    simp only [normNewlines, if_neg hc]
  | c :: d :: rest, h => by
    have hc : ¬(c = 0xD) := fun he => h (by simp [he])
    simp only [normNewlines, if_neg hc]
    rw [normNewlines_eq_self (d :: rest) fun hm => h (List.mem_cons_of_mem c hm)]

theorem trimStart_eq_self {l : JSStr} (h : headOK l = true) : trimStart l = l := by
  cases l with
  | nil => rfl
  | cons c rest =>
    simp only [headOK, Bool.not_eq_true'] at h
    simp [trimStart, h]

theorem trimEnd_cons (c : Nat) (rest : JSStr) :
    trimEnd (c :: rest) = match trimEnd rest with
      | [] => if isJsWhitespace c then [] else [c]
      | d :: t => c :: d :: t := rfl

theorem trimEnd_eq_self : ∀ l : JSStr, lastOK l = true → trimEnd l = l
  | [], _ => rfl
  | [c], h => by
    simp only [lastOK, Bool.not_eq_true'] at h
    simp [trimEnd, h]
  | c :: d :: rest, h => by
    have ih := trimEnd_eq_self (d :: rest) (by simpa [lastOK] using h)
    rw [trimEnd_cons, ih]

theorem trim_eq_self {l : JSStr} (hh : headOK l = true) (hl : lastOK l = true) :
    trim l = l := by
  unfold trim
  rw [trimStart_eq_self hh, trimEnd_eq_self l hl]

theorem splitNL_cons_form (c : Nat) (r : JSStr) (hc : ¬(c = 0xA)) :
    ∃ t0 ls, splitNL (c :: r) = (c :: t0) :: ls := by
  simp only [splitNL, if_neg hc]
  cases hsp : splitNL r with
  | nil => exact ⟨[], [], rfl⟩
  | cons l0 ls => exact ⟨l0, ls, rfl⟩

theorem splitNL_form : ∀ l : JSStr, ∃ t0 ls, splitNL l = t0 :: ls := by
  intro l
  cases l with
  | nil => exact ⟨[], [], rfl⟩
  | cons c rest =>
    by_cases hc : c = 0xA
    · exact ⟨[], splitNL rest, by simp [splitNL, hc]⟩
    · obtain ⟨t0, ls, h⟩ := splitNL_cons_form c rest hc
      exact ⟨c :: t0, ls, h⟩

theorem joinNL_cons (c : Nat) : ∀ (t : JSStr) (ls : List JSStr),
    joinNL ((c :: t) :: ls) = c :: joinNL (t :: ls) := by
  intro t ls
  cases ls with
  | nil => rfl
  | cons l2 ls2 => simp [joinNL]

theorem joinNL_splitNL : ∀ l : JSStr, joinNL (splitNL l) = l
  | [] => rfl
  | c :: rest => by
    obtain ⟨t0, ls, hsp⟩ := splitNL_form rest
    by_cases hc : c = 0xA
    · simp only [splitNL, if_pos hc, hsp]
      have : joinNL ([] :: t0 :: ls) = 0xA :: joinNL (t0 :: ls) := by simp [joinNL]
      rw [this, ← hsp, joinNL_splitNL rest, hc]
    · simp only [splitNL, if_neg hc, hsp]
      rw [joinNL_cons, ← hsp, joinNL_splitNL rest]

theorem mapSelf {α : Type} (f : α → α) :
    ∀ xs : List α, (∀ x ∈ xs, f x = x) → xs.map f = xs := by
  intro xs h
  induction xs with
  | nil => rfl
  | cons x rest ih =>
    simp only [List.map_cons]
    rw [h x (List.mem_cons_self x rest), ih fun y hy => h y (List.mem_cons_of_mem x hy)]

theorem lines_lastOK :
    ∀ l : JSStr, chainOK wsBeforeNL l = true → lastOK l = true →
      ∀ line ∈ splitNL l, lastOK line = true := by
  intro l
  induction l with
  | nil =>
    intro _ _ line hl
    simp [splitNL] at hl
    simp [hl, lastOK]
  | cons c rest ih =>
    intro hch hlast line hl
    by_cases hc : c = 0xA
    · simp only [splitNL, if_pos hc] at hl
      rcases List.mem_cons.mp hl with h2 | h2
      · simp [h2, lastOK]
      · cases rest with
        | nil =>
          simp [splitNL] at h2
          simp [h2, lastOK]
        | cons e t =>
          exact ih (chainOK_tail hch) (by simpa [lastOK] using hlast) line h2
    · simp only [splitNL, if_neg hc] at hl
      cases rest with
      | nil =>
        simp [splitNL] at hl
        rw [hl]
        simpa [lastOK] using hlast
      | cons e t =>
        by_cases he : e = 0xA
        · rw [show splitNL (e :: t) = [] :: splitNL t by simp [splitNL, he]] at hl
          rcases List.mem_cons.mp hl with h2 | h2
          · rw [h2]
            have hpair : wsBeforeNL c e = false := chainOK_head hch
            simp [wsBeforeNL, he, hc] at hpair
            simp [lastOK, hpair]
          · apply ih (chainOK_tail hch) (by simpa [lastOK] using hlast) line
            rw [show splitNL (e :: t) = [] :: splitNL t by simp [splitNL, he]]
            exact List.mem_cons_of_mem [] h2
        · obtain ⟨t0, ls, hsp⟩ := splitNL_cons_form e t he
          rw [hsp] at hl
          rcases List.mem_cons.mp hl with h2 | h2
          · rw [h2]
            have hfirst : lastOK (e :: t0) = true :=
              ih (chainOK_tail hch) (by simpa [lastOK] using hlast) (e :: t0)
                (hsp ▸ List.mem_cons_self _ _)
            simpa [lastOK] using hfirst
          · exact ih (chainOK_tail hch) (by simpa [lastOK] using hlast) line
              (hsp ▸ List.mem_cons_of_mem _ h2)

theorem linesTrim_eq_self {l : JSStr} (h1 : chainOK wsBeforeNL l = true)
    (h2 : lastOK l = true) : linesTrim l = l := by
  unfold linesTrim
  rw [mapSelf trimEnd (splitNL l)
    (fun line hl => trimEnd_eq_self line (lines_lastOK l h1 h2 line hl))]
  exact joinNL_splitNL l

/-- Every step of the pipeline is the identity on a clean (already converted)
text, hence so is the whole engine. -/
theorem transliterate_fixed {l : JSStr} (h : CleanText l) :
    transliterateToASCII l = l := by
  obtain ⟨hascii, h9, h13, hds, hwn, hhead, hlast⟩ := h
  unfold transliterateToASCII
  by_cases hl : l = []
  · rw [if_pos hl, hl]
  · rw [if_neg hl]
    rw [nfd_ascii_id hascii, substStep_ascii_id hascii, stripMarks_ascii_id hascii,
      stripNonAscii_ascii_id hascii, collapse_eq_self h9 hds,
      normNewlines_eq_self l h13, linesTrim_eq_self hwn hlast, trim_eq_self hhead hlast]

theorem chainOK_cons_of {bad : Nat → Nat → Bool} {a : Nat} {w : JSStr}
    (h : ∀ b t, w = b :: t → bad a b = false) (hw : chainOK bad w = true) :
    chainOK bad (a :: w) = true := by
  cases w with
  | nil => rfl
  | cons b t =>
    simp only [chainOK, Bool.and_eq_true, Bool.not_eq_true']
    exact ⟨h b t rfl, hw⟩

theorem collapseAux_true_head :
    ∀ (l : JSStr) (b : Nat) (t : JSStr), collapseAux true l = b :: t →
      isSpaceTab b = false := by
  intro l
  induction l with
  | nil => intro b t h; simp [collapseAux] at h
  | cons d rest ih =>
    intro b t h
    by_cases hd : isSpaceTab d
    · simp only [collapseAux, if_pos hd, if_pos rfl] at h
      exact ih b t h
    · simp only [collapseAux, if_neg hd] at h
      injection h with h1 _
      rw [← h1]
      simpa using hd

theorem collapseAux_chain :
    ∀ (sp : Bool) (l : JSStr), chainOK doubleSpace (collapseAux sp l) = true := by
  intro sp l
  induction l generalizing sp with
  | nil => rfl
  | cons d rest ih =>
    by_cases hd : isSpaceTab d
    · cases sp with
      | true =>
        simp only [collapseAux, if_pos hd, if_pos rfl]
        exact ih true
      | false =>
        simp only [collapseAux, if_pos hd, Bool.false_eq_true, if_false]
        apply chainOK_cons_of ?_ (ih true)
        intro b t hbt
        have hb := collapseAux_true_head rest b t hbt
        simp [isSpaceTab] at hb
        simp [doubleSpace]
        omega
    · simp only [collapseAux, if_neg hd]
      apply chainOK_cons_of ?_ (ih false)
      intro b t _
      simp [isSpaceTab] at hd
      simp [doubleSpace]
      omega

theorem normNewlines_shape (d : Nat) (r : JSStr) :
    ∃ w, normNewlines (d :: r) = (if d = 0xD then 0xA else d) :: w := by
  cases r with
  | nil =>
    by_cases hd : d = 0xD
    · exact ⟨[], by simp [normNewlines, hd]⟩
    · exact ⟨[], by simp [normNewlines, hd]⟩
  | cons e t =>
    by_cases hd : d = 0xD
    · by_cases he : e = 0xA
      · exact ⟨normNewlines t, by simp [normNewlines, hd, he]⟩
      · exact ⟨normNewlines (e :: t), by simp [normNewlines, hd, he]⟩
    · exact ⟨normNewlines (e :: t), by simp [normNewlines, hd]⟩

theorem chainOK_ds_normNewlines :
    ∀ l : JSStr, chainOK doubleSpace l = true →
      chainOK doubleSpace (normNewlines l) = true
  | [], _ => rfl
  | [c], _ => by
    by_cases hc : c = 0xD <;> simp [normNewlines, hc, chainOK]
  | c :: d :: rest, h => by
    by_cases hc : c = 0xD
    · by_cases hd : d = 0xA
      · simp only [normNewlines, if_pos hc, if_pos hd]
        apply chainOK_cons_of ?_
          (chainOK_ds_normNewlines rest (chainOK_tail (chainOK_tail h)))
        intro b t _
        simp [doubleSpace]
      · simp only [normNewlines, if_pos hc, if_neg hd]
        apply chainOK_cons_of ?_
          (chainOK_ds_normNewlines (d :: rest) (chainOK_tail h))
        intro b t _
        simp [doubleSpace]
    · simp only [normNewlines, if_neg hc]
      apply chainOK_cons_of ?_
        (chainOK_ds_normNewlines (d :: rest) (chainOK_tail h))
      intro b t hbt
      obtain ⟨w, hw⟩ := normNewlines_shape d rest
      rw [hw] at hbt
      injection hbt with h1 _
      by_cases hd13 : d = 0xD
      · rw [if_pos hd13] at h1
        rw [← h1]
        simp [doubleSpace]
      · rw [if_neg hd13] at h1
        rw [← h1]
        exact chainOK_head h

theorem splitNL_no10 : ∀ l line : JSStr, line ∈ splitNL l → 0xA ∉ line := by
  intro l
  induction l with
  | nil =>
    intro line hl
    simp [splitNL] at hl
    simp [hl]
  | cons c rest ih =>
    intro line hl
    by_cases hc : c = 0xA
    · simp only [splitNL, if_pos hc] at hl
      rcases List.mem_cons.mp hl with h2 | h2
      · simp [h2]
      · exact ih line h2
    · obtain ⟨u0, us, hu⟩ := splitNL_form rest
      rw [show splitNL (c :: rest) = (c :: u0) :: us by simp [splitNL, hc, hu]] at hl
      rcases List.mem_cons.mp hl with h2 | h2
      · rw [h2]
        intro hmem
        rcases List.mem_cons.mp hmem with h3 | h3
        · exact hc h3.symm
        · exact ih u0 (hu ▸ List.mem_cons_self u0 us) h3
      · exact ih line (hu ▸ List.mem_cons_of_mem u0 h2)

theorem splitNL_first_cons :
    ∀ (r : JSStr) (b : Nat) (t : JSStr) (us : List JSStr),
      splitNL r = (b :: t) :: us → ∃ r2, r = b :: r2 := by
  intro r b t us h
  cases r with
  | nil =>
    simp [splitNL] at h
  | cons e r2 =>
    by_cases he : e = 0xA
    · rw [show splitNL (e :: r2) = [] :: splitNL r2 by simp [splitNL, he]] at h
      injection h with h1 _
      exact absurd h1.symm (List.cons_ne_nil b t)
    · obtain ⟨v0, vs, hv⟩ := splitNL_form r2
      rw [show splitNL (e :: r2) = (e :: v0) :: vs by simp [splitNL, he, hv]] at h
      injection h with h1 _
      injection h1 with h3 _
      exact ⟨r2, by rw [h3]⟩

theorem chainOK_splitNL {bad : Nat → Nat → Bool} :
    ∀ l : JSStr, chainOK bad l = true →
      ∀ line ∈ splitNL l, chainOK bad line = true := by
  intro l
  induction l with
  | nil =>
    intro _ line hl
    simp [splitNL] at hl
    simp [hl, chainOK]
  | cons c rest ih =>
    intro h line hl
    by_cases hc : c = 0xA
    · simp only [splitNL, if_pos hc] at hl
      rcases List.mem_cons.mp hl with h2 | h2
      · rw [h2]; rfl
      · exact ih (chainOK_tail h) line h2
    · obtain ⟨u0, us, hu⟩ := splitNL_form rest
      rw [show splitNL (c :: rest) = (c :: u0) :: us by simp [splitNL, hc, hu]] at hl
      rcases List.mem_cons.mp hl with h2 | h2
      · rw [h2]
        apply chainOK_cons_of ?_ (ih (chainOK_tail h) u0 (hu ▸ List.mem_cons_self u0 us))
        intro b t hbt
        obtain ⟨r2, hr2⟩ := splitNL_first_cons rest b t us (by rw [hu, hbt])
        rw [hr2] at h
        exact chainOK_head h
      · exact ih (chainOK_tail h) line (hu ▸ List.mem_cons_of_mem u0 h2)

theorem trimEnd_head :
    ∀ (c : Nat) (rest : JSStr) (d : Nat) (t : JSStr),
      trimEnd (c :: rest) = d :: t → d = c := by
  intro c rest d t h
  rw [trimEnd_cons] at h
  cases htr : trimEnd rest with
  | nil =>
    rw [htr] at h
    by_cases hc : isJsWhitespace c
    · simp [hc] at h
    · simp [hc] at h
      exact h.1.symm
  | cons e t2 =>
    rw [htr] at h
    injection h with h1 _
    exact h1.symm

theorem chainOK_trimEnd {bad : Nat → Nat → Bool} :
    ∀ l : JSStr, chainOK bad l = true → chainOK bad (trimEnd l) = true := by
  intro l
  induction l with
  | nil => intro _; rfl
  | cons c rest ih =>
    intro h
    rw [trimEnd_cons]
    cases htr : trimEnd rest with
    | nil =>
      by_cases hc : isJsWhitespace c
      · simp [hc]
        rfl
      · simp [hc]
        rfl
    | cons e t =>
      cases rest with
      | nil => simp [trimEnd] at htr
      | cons f r2 =>
        have he : e = f := trimEnd_head f r2 e t htr
        apply chainOK_cons_of ?_ (htr ▸ ih (chainOK_tail h))
        intro b t2 hbt
        injection hbt with h1 _
        rw [← h1, he]
        exact chainOK_head h

theorem chainOK_trimStart {bad : Nat → Nat → Bool} :
    ∀ l : JSStr, chainOK bad l = true → chainOK bad (trimStart l) = true := by
  intro l
  induction l with
  | nil => intro _; rfl
  | cons c rest ih =>
    intro h
    simp only [trimStart]
    by_cases hc : isJsWhitespace c
    · rw [if_pos hc]
      exact ih (chainOK_tail h)
    · rw [if_neg hc]
      exact h

theorem headOK_trimStart : ∀ l : JSStr, headOK (trimStart l) = true := by
  intro l
  induction l with
  | nil => rfl
  | cons c rest ih =>
    simp only [trimStart]
    by_cases hc : isJsWhitespace c
    · rw [if_pos hc]
      exact ih
    · rw [if_neg hc]
      simp [headOK]
      simpa using hc

theorem headOK_trimEnd {l : JSStr} (h : headOK l = true) :
    headOK (trimEnd l) = true := by
  cases l with
  | nil => rfl
  | cons c rest =>
    rw [trimEnd_cons]
    cases htr : trimEnd rest with
    | nil =>
      by_cases hc : isJsWhitespace c
      · simp [hc]
        rfl
      · simp [hc]
        exact h
    | cons e t => exact h

theorem lastOK_trimEnd : ∀ l : JSStr, lastOK (trimEnd l) = true := by
  intro l
  induction l with
  | nil => rfl
  | cons c rest ih =>
    rw [trimEnd_cons]
    cases htr : trimEnd rest with
    | nil =>
      by_cases hc : isJsWhitespace c
      · simp [hc]
        rfl
      · simp [hc, lastOK]
    | cons e t =>
      rw [show lastOK (c :: e :: t) = lastOK (e :: t) from rfl]
      exact htr ▸ ih

theorem chainOK_wsNL_of_no10 : ∀ l : JSStr, 0xA ∉ l → chainOK wsBeforeNL l = true
  | [], _ => rfl
  | [_], _ => rfl
  | a :: b :: t, h => by
    have hb : ¬(b = 0xA) := fun he => h (by simp [he])
    apply chainOK_cons_of ?_
      (chainOK_wsNL_of_no10 (b :: t) fun hm => h (List.mem_cons_of_mem a hm))
    intro e t2 he
    injection he with h1 _
    rw [← h1]
    simp [wsBeforeNL, hb]

theorem lastOK_getLast :
    ∀ (m : JSStr) (a : Nat), lastOK m = true → m.getLast? = some a →
      isJsWhitespace a = false
  | [], a, _, h => by simp at h
  | [c], a, hl, h => by
    simp at h
    rw [← h]
    simpa [lastOK, Bool.not_eq_true'] using hl
  | c :: d :: rest, a, hl, h => by
    rw [List.getLast?_cons_cons] at h
    exact lastOK_getLast (d :: rest) a (by simpa [lastOK] using hl) h

theorem chainOK_append_sep (bad : Nat → Nat → Bool) :
    ∀ (xs ys : JSStr), chainOK bad xs = true → chainOK bad ys = true →
      (∀ a, xs.getLast? = some a → bad a 0xA = false) →
      (∀ b t, ys = b :: t → bad 0xA b = false) →
      chainOK bad (xs ++ 0xA :: ys) = true
  | [], ys, _, hys, _, hsep => by
    simp only [List.nil_append]
    exact chainOK_cons_of hsep hys
  | [a], ys, _, hys, hlast, hsep => by
    simp only [List.cons_append, List.nil_append]
    refine chainOK_cons_of ?_ (chainOK_cons_of hsep hys)
    intro b t hbt
    injection hbt with h1 _
    rw [← h1]
    exact hlast a (by simp)
  | a :: b :: xs2, ys, hxs, hys, hlast, hsep => by
    have ih := chainOK_append_sep bad (b :: xs2) ys (chainOK_tail hxs) hys
      (fun e he => hlast e (by rw [List.getLast?_cons_cons]; exact he)) hsep
    simp only [List.cons_append]
    simp only [chainOK, Bool.and_eq_true, Bool.not_eq_true']
    refine ⟨chainOK_head hxs, ?_⟩
    simpa [List.cons_append] using ih

theorem chainOK_joinNL (bad : Nat → Nat → Bool) (hsep10 : ∀ b, bad 0xA b = false) :
    ∀ ls : List JSStr, (∀ line ∈ ls, chainOK bad line = true) →
      (∀ line ∈ ls, ∀ a, line.getLast? = some a → bad a 0xA = false) →
      chainOK bad (joinNL ls) = true
  | [], _, _ => rfl
  | [line], h, _ => h line (List.mem_cons_self line [])
  | line :: l2 :: ls2, h, hl => by
    simp only [joinNL]
    apply chainOK_append_sep bad line (joinNL (l2 :: ls2))
      (h line (List.mem_cons_self line (l2 :: ls2)))
      (chainOK_joinNL bad hsep10 (l2 :: ls2)
        (fun m hm => h m (List.mem_cons_of_mem line hm))
        (fun m hm => hl m (List.mem_cons_of_mem line hm)))
      (hl line (List.mem_cons_self line (l2 :: ls2)))
      (fun b t _ => hsep10 b)

theorem chainOK_ds_linesTrim {l : JSStr} (h : chainOK doubleSpace l = true) :
    chainOK doubleSpace (linesTrim l) = true := by
  unfold linesTrim
  apply chainOK_joinNL doubleSpace (by intro b; simp [doubleSpace])
  · intro line hline
    obtain ⟨l0, hl0, hmap⟩ := List.mem_map.mp hline
    rw [← hmap]
    exact chainOK_trimEnd l0 (chainOK_splitNL l h l0 hl0)
  · intro line _ a _
    simp [doubleSpace]

theorem chainOK_wsNL_linesTrim (l : JSStr) :
    chainOK wsBeforeNL (linesTrim l) = true := by
  unfold linesTrim
  apply chainOK_joinNL wsBeforeNL (by intro b; simp [wsBeforeNL])
  · intro line hline
    obtain ⟨l0, hl0, hmap⟩ := List.mem_map.mp hline
    rw [← hmap]
    exact chainOK_wsNL_of_no10 (trimEnd l0)
      fun hm => splitNL_no10 l l0 hl0 (mem_trimEnd l0 hm)
  · intro line hline a ha
    obtain ⟨l0, hl0, hmap⟩ := List.mem_map.mp hline
    rw [← hmap] at ha
    have hws := lastOK_getLast (trimEnd l0) a (lastOK_trimEnd l0) ha
    simp [wsBeforeNL, hws]

/-- Master shape lemma: the engine output is always in the clean normal
form. -/
theorem transliterate_clean (s : JSStr) : CleanText (transliterateToASCII s) := by
  by_cases hs : s = []
  · rw [hs, show transliterateToASCII [] = [] from rfl]
    exact ⟨by simp, by simp, by simp, rfl, rfl, rfl, rfl⟩
  · have hout : transliterateToASCII s =
      trim (linesTrim (normNewlines (collapse (stripNonAscii (stripMarks
        (substStep (nfd s))))))) := by
      unfold transliterateToASCII
      rw [if_neg hs]
    refine ⟨fun c hc => transliterate_mem_ascii s hc, ?_, ?_, ?_, ?_, ?_, ?_⟩
    · intro h9
      rw [hout] at h9
      have h1 := mem_trim _ h9
      rcases mem_linesTrim _ h1 with h2 | h2
      · rcases mem_normNewlines _ h2 with h3 | h3
        · exact collapseAux_no9 false _ h3
        · omega
      · omega
    · intro h13
      rw [hout] at h13
      have h1 := mem_trim _ h13
      rcases mem_linesTrim _ h1 with h2 | h2
      · exact normNewlines_no13 _ h2
      · omega
    · rw [hout]
      exact chainOK_trimEnd _ (chainOK_trimStart _ (chainOK_ds_linesTrim
        (chainOK_ds_normNewlines _ (collapseAux_chain false _))))
    · rw [hout]
      exact chainOK_trimEnd _ (chainOK_trimStart _ (chainOK_wsNL_linesTrim _))
    · rw [hout]
      exact headOK_trimEnd (headOK_trimStart _)
    · rw [hout]
      exact lastOK_trimEnd _

/-- C1: for every input string, every code unit of the string returned by
convert/transliterateToASCII lies in the range 0..127: the ASCII-only
postcondition holds for all inputs, not just those covered by the
replacement table. -/
theorem claim1_convert_output_ascii (s : JSStr) (c : Nat)
    (h : c ∈ transliterateToASCII s) : c < 128 :=
  transliterate_mem_ascii s h

theorem claim1_convert_output_ascii_witness :
    0x65 ∈ transliterateToASCII cafeInput ∧ 0x65 < 128 :=
  ⟨by decide, claim1_convert_output_ascii cafeInput 0x65 (by decide)⟩

/-- C2: convert/transliterateToASCII is idempotent: for every input string x,
convert(convert(x)) equals convert(x); every output of the pipeline is a
fixed point of the pipeline. -/
theorem claim2_convert_idempotent (x : JSStr) :
    transliterateToASCII (transliterateToASCII x) = transliterateToASCII x :=
  transliterate_fixed (transliterate_clean x)

/-- C3: the last stage of the Stage Pipeline coincides with the Engine: for
every sample string s, applyStage(6, s).text equals convert(s) (the stage-6
transform is the full transliteration). -/
theorem claim3_stage6_is_engine (s : JSStr) :
    (applyStage 6 s).text = transliterateToASCII s ∧
    (applyStage 6 s).text = (convert s).1 :=
  ⟨rfl, rfl⟩

/-- C4: for every input text the stats of convert satisfy
inChars = input length, outChars = output length, and
removed = inChars - outChars in exact signed integer arithmetic with no
clamping; removed is negative exactly when the output is longer than the
input, as for the expanding substitution of the euro sign. -/
theorem claim4_convert_stats_signed :
    (∀ t : JSStr, (convert t).2.inChars = t.length ∧
      (convert t).2.outChars = (convert t).1.length ∧
      (convert t).2.removed = (t.length : Int) - ((convert t).1.length : Int)) ∧
    (∀ t : JSStr, ((convert t).2.removed < 0 ↔ t.length < (convert t).1.length)) ∧
    (convert [0x20AC]).2.removed = -2 := by
  refine ⟨fun t => ⟨rfl, rfl, rfl⟩, fun t => ?_, by decide⟩
  simp only [convert]
  omega

/-- C5: convert/transliterateToASCII is total over all strings: it accepts
the empty string, strings containing unpaired surrogate code units, and any
string at all; in this embedding every pipeline step is a total function, so
the composite is defined on every input, and the documented edge cases
evaluate without failure (a lone surrogate is simply dropped by the
non-ASCII filter). -/
theorem claim5_convert_total :
    transliterateToASCII [] = [] ∧
    transliterateToASCII [0xD800] = [] ∧
    transliterateToASCII [0xDC00] = [] ∧
    transliterateToASCII [0xD800, 0x61, 0xDC00] = [0x61] ∧
    (∀ s : JSStr, ∃ t, transliterateToASCII s = t) := by
  refine ⟨rfl, by decide, by decide, by decide, fun s => ⟨_, rfl⟩⟩

/-- C6: monotonic refinement of the Stage Pipeline on the fixed sample: each
consecutive stage text is obtained from the previous stage text by applying
only the Engine rules that come after that stage in the pipeline order (the
rules after stage 3 being the non-ASCII drop followed by the whitespace and
trimming normalizations, which the stage-4 transform replays; after stage 4
the remaining normalizations change nothing). -/
theorem claim6_stage_refinement_sample :
    (applyStage 1 sampleDemo).text = nfd ((applyStage 0 sampleDemo).text) ∧
    (applyStage 2 sampleDemo).text = substStep ((applyStage 1 sampleDemo).text) ∧
    (applyStage 3 sampleDemo).text = stripMarks ((applyStage 2 sampleDemo).text) ∧
    (applyStage 4 sampleDemo).text =
      trim (linesTrim (normNewlines (collapse
        (stripNonAscii ((applyStage 3 sampleDemo).text))))) ∧
    (applyStage 5 sampleDemo).text =
      trim (linesTrim (normNewlines (collapse ((applyStage 4 sampleDemo).text)))) ∧
    (applyStage 6 sampleDemo).text = trim ((applyStage 5 sampleDemo).text) := by
  exact ⟨rfl, rfl, rfl, by decide, by decide, by decide⟩

/-- C7: stage 5 and stage 6 produce identical text for every sample string,
and differ only in their description label. -/
theorem claim7_stage5_eq_stage6 :
    (∀ s : JSStr, (applyStage 5 s).text = (applyStage 6 s).text) ∧
    (((applyStage 5 sampleDemo).desc == (applyStage 6 sampleDemo).desc) = false) := by
  constructor
  · intro s
    obtain ⟨_, _, h13, _, hwn, hh, hl⟩ := transliterate_clean s
    show trim (linesTrim (normNewlines (transliterateToASCII s))) =
      transliterateToASCII s
    rw [normNewlines_eq_self _ h13, linesTrim_eq_self hwn hl, trim_eq_self hh hl]
  · decide

/-- C8: convert("café") = "cafe": NFD splits é into e plus the combining
acute accent U+0301, the combining-mark removal deletes the accent, and the
remaining ASCII letters pass through the later steps untouched. -/
theorem claim8_convert_cafe :
    transliterateToASCII cafeInput = [0x63, 0x61, 0x66, 0x65] ∧
    nfdChar 0xE9 = [0x65, 0x301] ∧
    isCombiningMark 0x301 = true ∧
    stripMarks [0x63, 0x61, 0x66, 0x65, 0x301] = [0x63, 0x61, 0x66, 0x65] := by
  decide

/-- C9: the replacement table invariant: each of the 28 entries has a single
non-ASCII code point as key (codepoint at least 128) and an ASCII-only
value. -/
theorem claim9_basicReplacements_invariant :
    basicReplacements.length = 28 ∧
    (∀ p ∈ basicReplacements, 128 ≤ p.1 ∧ ∀ c ∈ p.2, c < 128) := by
  decide

theorem claim9_basicReplacements_invariant_witness :
    128 ≤ (0x20AC : Nat) ∧ ∀ c ∈ [0x45, 0x55, 0x52], c < 128 := by
  have h := claim9_basicReplacements_invariant.2 (0x20AC, [0x45, 0x55, 0x52])
    (by decide)
  exact h

/-- C10: the stage-4 transform already yields the fully converted text for
every sample string, because the whitespace collapse, newline normalization,
per-line trim and global trim it re-applies are no-ops on the Engine output;
hence stages 4, 5 and 6 all produce identical text. -/
theorem claim10_stage4_already_final (s : JSStr) :
    (applyStage 4 s).text = transliterateToASCII s ∧
    (applyStage 5 s).text = transliterateToASCII s ∧
    (applyStage 6 s).text = transliterateToASCII s := by
  obtain ⟨_, h9, h13, hds, hwn, hh, hl⟩ := transliterate_clean s
  refine ⟨?_, ?_, rfl⟩
  · show trim (linesTrim (normNewlines (collapse (transliterateToASCII s)))) =
      transliterateToASCII s
    rw [collapse_eq_self h9 hds, normNewlines_eq_self _ h13,
      linesTrim_eq_self hwn hl, trim_eq_self hh hl]
  · show trim (linesTrim (normNewlines (transliterateToASCII s))) =
      transliterateToASCII s
    rw [normNewlines_eq_self _ h13, linesTrim_eq_self hwn hl, trim_eq_self hh hl]

end LLMCleanText
